import Mathlib

/-!
Shallow embedding of the rebalancer core (`src/services/rebalancer.py`).

Python floats are modelled as exact rationals; `round(x, 2)` and the
`:,.0f` format specifier are modelled with round-half-even, which is the
rounding mode Python's `round` and `format` use.  Python dicts are
modelled as insertion-ordered association lists, Python's stable
`list.sort` / `sorted` as a stable insertion sort over the corresponding
total preorder.
-/

attribute [local semireducible] Rat.add Rat.mul Rat.inv Rat.sub Rat.ofScientific

namespace Rebal

/-- Round-half-even to an integer (Python's `round` / `format` tie rule). -/
def roundHalfEven (x : ℚ) : ℤ :=
  if x - ⌊x⌋ < 1/2 then ⌊x⌋
  else if 1/2 < x - ⌊x⌋ then ⌊x⌋ + 1
  else if 2 ∣ ⌊x⌋ then ⌊x⌋ else ⌊x⌋ + 1

/-- Model of Python `round(x, 2)`. -/
def round2 (x : ℚ) : ℚ := (roundHalfEven (x * 100) : ℚ) / 100

/-- A holding row as consumed by `compute_breakdown` (`models/holding.py`). -/
structure Holding where
  ticker : String
  name : String
  quantity : ℚ
  value : ℚ
  brokerage : String
deriving DecidableEq

/-- A ticker classification row (`models/classification.py`); the JSON
dicts `region_breakdown` / `category_breakdown` are association lists,
with `[]` standing for an empty (or missing) dict. -/
structure TickerClassification where
  ticker : String
  region_breakdown : List (String × ℚ)
  category_breakdown : List (String × ℚ)
deriving DecidableEq

/-- `sum(h.value for h in holdings)`. -/
def totalValueRaw (hs : List Holding) : ℚ :=
  hs.foldl (fun s h => s + h.value) 0

/-- The dict comprehension `{c.ticker: c for c in …}`: later rows win. -/
def classLookup (cs : List TickerClassification) (t : String) :
    Option TickerClassification :=
  cs.reverse.find? (fun c => c.ticker == t)

/-- `classification.region_breakdown or {"US": 100}` with the absent-ticker
default, exactly as in `compute_breakdown`. -/
def resolveRegion (cs : List TickerClassification) (t : String) :
    List (String × ℚ) :=
  match classLookup cs t with
  | some c => if c.region_breakdown.isEmpty then [("US", 100)] else c.region_breakdown
  | none => [("US", 100)]

/-- `classification.category_breakdown or {"Equities": 100}` with the
absent-ticker default, exactly as in `compute_breakdown`. -/
def resolveCategory (cs : List TickerClassification) (t : String) :
    List (String × ℚ) :=
  match classLookup cs t with
  | some c => if c.category_breakdown.isEmpty then [("Equities", 100)] else c.category_breakdown
  | none => [("Equities", 100)]

/-- One entry of the `ticker_values` dict. -/
structure TickerInfo where
  ticker : String
  name : String
  value : ℚ
  quantity : ℚ
  brokerages : List String
deriving DecidableEq

/-- Python `set.add`: the brokerage set, kept as a duplicate-free list. -/
def insBrokerage (bs : List String) (b : String) : List String :=
  if b ∈ bs then bs else bs ++ [b]

/-- One iteration of the `ticker_values` aggregation loop. -/
def updateTicker : List TickerInfo → Holding → List TickerInfo
  | [], h => [⟨h.ticker, h.name, h.value, h.quantity, [h.brokerage]⟩]
  | i :: rest, h =>
    if i.ticker = h.ticker then
      ⟨i.ticker, i.name, i.value + h.value, i.quantity + h.quantity,
        insBrokerage i.brokerages h.brokerage⟩ :: rest
    else i :: updateTicker rest h

/-- The `ticker_values` dict: holdings grouped by (exact) ticker. -/
def tickerValues (hs : List Holding) : List TickerInfo :=
  hs.foldl updateTicker []

/-- `totals[label] = totals.get(label, 0) + amt` on an ordered dict. -/
def addTotal : List (String × ℚ) → String → ℚ → List (String × ℚ)
  | [], l, amt => [(l, amt)]
  | (k, v) :: rest, l, amt =>
    if k = l then (k, v + amt) :: rest else (k, v) :: addTotal rest l amt

/-- `for label, pct in dist.items(): totals[label] += value * pct / 100`. -/
def distribute (acc : List (String × ℚ)) (v : ℚ) (dist : List (String × ℚ)) :
    List (String × ℚ) :=
  dist.foldl (fun a lp => addTotal a lp.1 (v * lp.2 / 100)) acc

/-- The `region_totals` accumulator after the main loop. -/
def regionTotals (cs : List TickerClassification) (infos : List TickerInfo) :
    List (String × ℚ) :=
  infos.foldl (fun acc i => distribute acc i.value (resolveRegion cs i.ticker)) []

/-- The `category_totals` accumulator after the main loop. -/
def categoryTotals (cs : List TickerClassification) (infos : List TickerInfo) :
    List (String × ℚ) :=
  infos.foldl (fun acc i => distribute acc i.value (resolveCategory cs i.ticker)) []

/-- The `{"value": …, "pct": …}` cell of `by_region` / `by_category`. -/
structure LabelStat where
  value : ℚ
  pct : ℚ
deriving DecidableEq

/-- Descending-by-value order used for `sorted(…, key=lambda x: -x[1])`. -/
def valDesc (a b : String × ℚ) : Prop := b.2 ≤ a.2

instance : DecidableRel valDesc := fun a b => inferInstanceAs (Decidable (b.2 ≤ a.2))

/-- `{k: {"value": round(v,2), "pct": round(v/total*100,2)} for k,v in sorted(…)}`. -/
def byMap (total : ℚ) (totals : List (String × ℚ)) : List (String × LabelStat) :=
  (totals.insertionSort valDesc).map
    (fun kv => (kv.1, ⟨round2 kv.2, round2 (kv.2 / total * 100)⟩))

/-- One record of the `holdings` detail list. -/
structure HoldingDetail where
  ticker : String
  name : String
  value : ℚ
  pct : ℚ
  quantity : ℚ
  brokerages : List String
  region : List (String × ℚ)
  category : List (String × ℚ)
deriving DecidableEq

/-- Lexicographic comparison of char lists by code point, Python's string
order. -/
def charLeAux : List Char → List Char → Bool
  | [], _ => true
  | _ :: _, [] => false
  | a :: as, b :: bs =>
    if a.toNat < b.toNat then true
    else if b.toNat < a.toNat then false
    else charLeAux as bs

/-- The string order used for Python's `sorted` on strings: lexicographic
by code point. -/
def strLe (a b : String) : Prop := charLeAux a.data b.data = true

instance : DecidableRel strLe := fun a b =>
  inferInstanceAs (Decidable (charLeAux a.data b.data = true))

/-- `sorted(info["brokerages"])`. -/
def sortStrings (l : List String) : List String := l.insertionSort strLe

/-- The detail record appended for one ticker group. -/
def mkDetail (cs : List TickerClassification) (total : ℚ) (i : TickerInfo) :
    HoldingDetail :=
  ⟨i.ticker, i.name, round2 i.value, round2 (i.value / total * 100), i.quantity,
    sortStrings i.brokerages, resolveRegion cs i.ticker, resolveCategory cs i.ticker⟩

/-- Descending-by-value order for `holding_details.sort(key=…, reverse=True)`. -/
def detailDesc (a b : HoldingDetail) : Prop := b.value ≤ a.value

instance : DecidableRel detailDesc := fun a b => inferInstanceAs (Decidable (b.value ≤ a.value))

/-- The result dict of `compute_breakdown`. -/
structure Breakdown where
  total_value : ℚ
  by_region : List (String × LabelStat)
  by_category : List (String × LabelStat)
  holdings : List HoldingDetail
deriving DecidableEq

/-- `compute_breakdown(holdings)` with the classification table passed
explicitly (the Python reads it from the database at entry). -/
def computeBreakdown (cs : List TickerClassification) (hs : List Holding) :
    Breakdown :=
  let total := totalValueRaw hs
  if total = 0 then ⟨0, [], [], []⟩
  else
    let infos := tickerValues hs
    ⟨round2 total,
      byMap total (regionTotals cs infos),
      byMap total (categoryTotals cs infos),
      (infos.map (mkDetail cs total)).insertionSort detailDesc⟩

/-- The `dimension` argument of `compute_rebalance` ('region' or 'category'). -/
inductive Dimension
  | region
  | category
deriving DecidableEq

/-- A `TargetAllocation` row (`models/target.py`). -/
structure TargetAllocation where
  dimension : Dimension
  label : String
  target_pct : ℚ
deriving DecidableEq

/-- `breakdown[f"by_{dimension}"]`. -/
def Breakdown.currentOf (bd : Breakdown) : Dimension → List (String × LabelStat)
  | .region => bd.by_region
  | .category => bd.by_category

/-- Dict assignment `d[l] = p`: overwrite in place, else append. -/
def setTarget : List (String × ℚ) → String → ℚ → List (String × ℚ)
  | [], l, p => [(l, p)]
  | (k, v) :: rest, l, p =>
    if k = l then (k, p) :: rest else (k, v) :: setTarget rest l p

/-- `{t.label: t.target_pct for t in TargetAllocation.query.filter_by(dimension=…)}`. -/
def targetsDict (ts : List TargetAllocation) (dim : Dimension) : List (String × ℚ) :=
  (ts.filter (fun t => decide (t.dimension = dim))).foldl
    (fun acc t => setTarget acc t.label t.target_pct) []

/-- One row of the `compute_rebalance` result. -/
structure RebalanceItem where
  label : String
  current_pct : ℚ
  target_pct : ℚ
  current_value : ℚ
  target_value : ℚ
  drift : ℚ
  action : String
  amount : ℚ
deriving DecidableEq

/-- `.get(label, {}).get("pct", 0)` (a present label always maps to a dict). -/
def lookupStat (m : List (String × LabelStat)) (l : String) : Option LabelStat :=
  (m.find? (fun kv => kv.1 == l)).map Prod.snd

/-- `targets.get(label, 0)` lookup on the targets dict. -/
def lookupPct (m : List (String × ℚ)) (l : String) : Option ℚ :=
  (m.find? (fun kv => kv.1 == l)).map Prod.snd

/-- The body of the per-label loop of `compute_rebalance`. -/
def mkItem (total : ℚ) (current : List (String × LabelStat))
    (tdict : List (String × ℚ)) (label : String) : RebalanceItem :=
  let current_pct := ((lookupStat current label).map LabelStat.pct).getD 0
  let current_value := ((lookupStat current label).map LabelStat.value).getD 0
  let target_pct := (lookupPct tdict label).getD 0
  let target_value := total * target_pct / 100
  let drift := round2 (current_pct - target_pct)
  let amount := round2 |current_value - target_value|
  ⟨label, round2 current_pct, round2 target_pct, round2 current_value,
    round2 target_value, drift,
    if 1/2 < drift then "sell" else if drift < -(1/2) then "buy" else "hold",
    amount⟩

/-- Descending-absolute-drift order for `result.sort(key=…, reverse=True)`. -/
def driftDesc (a b : RebalanceItem) : Prop := |b.drift| ≤ |a.drift|

instance : DecidableRel driftDesc := fun a b => inferInstanceAs (Decidable (|b.drift| ≤ |a.drift|))

/-- `sorted(set(list(current.keys()) + list(targets.keys())))`. -/
def allLabels (bd : Breakdown) (dim : Dimension) (ts : List TargetAllocation) :
    List String :=
  (((bd.currentOf dim).map Prod.fst ++ (targetsDict ts dim).map Prod.fst).dedup).insertionSort strLe

/-- `compute_rebalance(breakdown, dimension)` with the target rows passed
explicitly (the Python reads them from the database). -/
def computeRebalance (bd : Breakdown) (dim : Dimension)
    (ts : List TargetAllocation) : List RebalanceItem :=
  if bd.total_value = 0 then []
  else if (targetsDict ts dim).isEmpty then []
  else
    ((allLabels bd dim ts).map
      (mkItem bd.total_value (bd.currentOf dim) (targetsDict ts dim))).insertionSort driftDesc

/-- Comma-group a reversed digit string (thousands separators). -/
def chunk3 : List Char → List Char
  | a :: b :: c :: d :: rest => a :: b :: c :: ',' :: chunk3 (d :: rest)
  | l => l

/-- Comma-grouped decimal rendering of a natural number. -/
def natComma (n : ℕ) : String :=
  ⟨(chunk3 (toString n).data.reverse).reverse⟩

/-- Python's `f"{x:,.0f}"`: round half-even to an integer, comma-grouped. -/
def moneyStr (q : ℚ) : String :=
  let z := roundHalfEven q
  if z < 0 then "-" ++ natComma z.natAbs else natComma z.natAbs

/-- One iteration of the category summary loop of `suggest_trades`. -/
def catStep (acc : List String) (i : RebalanceItem) : List String :=
  if i.action == "sell" then acc ++ ["Sell $" ++ moneyStr i.amount ++ " of " ++ i.label]
  else if i.action == "buy" then acc ++ ["Buy $" ++ moneyStr i.amount ++ " of " ++ i.label]
  else acc

/-- One iteration of the region summary loop of `suggest_trades`. -/
def regStep (acc : List String) (i : RebalanceItem) : List String :=
  if i.action == "sell" then acc ++ ["Reduce " ++ i.label ++ " by $" ++ moneyStr i.amount]
  else if i.action == "buy" then acc ++ ["Increase " ++ i.label ++ " by $" ++ moneyStr i.amount]
  else acc

/-- The `actions` list built by `suggest_trades`: the category loop runs
first, then the region loop extends the same list. -/
def suggestActions (bd : Breakdown) (ts : List TargetAllocation) : List String :=
  (computeRebalance bd .region ts).foldl regStep
    ((computeRebalance bd .category ts).foldl catStep [])

/-- The `summary` string of `suggest_trades`. -/
def suggestSummary (bd : Breakdown) (ts : List TargetAllocation) : String :=
  let acts := suggestActions bd ts
  if acts.isEmpty then "Portfolio is balanced!" else String.intercalate "; " acts

/-! ### Basic unfolding lemmas -/

theorem computeBreakdown_of_ne (cs : List TickerClassification) (hs : List Holding)
    (hne : totalValueRaw hs ≠ 0) :
    computeBreakdown cs hs =
      ⟨round2 (totalValueRaw hs),
        byMap (totalValueRaw hs) (regionTotals cs (tickerValues hs)),
        byMap (totalValueRaw hs) (categoryTotals cs (tickerValues hs)),
        ((tickerValues hs).map (mkDetail cs (totalValueRaw hs))).insertionSort detailDesc⟩ := by
  simp only [computeBreakdown, hne, if_false, ite_false, if_neg hne]

theorem mem_breakdown_holdings {cs : List TickerClassification} {hs : List Holding}
    (hne : totalValueRaw hs ≠ 0) {d : HoldingDetail} :
    d ∈ (computeBreakdown cs hs).holdings ↔
      ∃ i ∈ tickerValues hs, mkDetail cs (totalValueRaw hs) i = d := by
  rw [computeBreakdown_of_ne cs hs hne]
  simp [List.mem_insertionSort]

/-! ### C3 -/

/-- C3: when the holdings' values sum to exactly 0 (in particular for an
empty list), `compute_breakdown` returns total 0 and empty maps/list,
never dividing by the total. -/
theorem C3_zero_total (cs : List TickerClassification) (hs : List Holding)
    (h : totalValueRaw hs = 0) :
    computeBreakdown cs hs = ⟨0, [], [], []⟩ := by
  simp only [computeBreakdown, h, if_true, ite_true, if_pos]

/-- Witness for C3: a nonempty list whose values cancel to exactly 0. -/
theorem C3_zero_total_witness :
    computeBreakdown [] [⟨"AAA", "A", 1, 5, "x"⟩, ⟨"BBB", "B", 1, -5, "y"⟩] =
      ⟨0, [], [], []⟩ :=
  C3_zero_total [] [⟨"AAA", "A", 1, 5, "x"⟩, ⟨"BBB", "B", 1, -5, "y"⟩] (by decide)

/-! ### C1 -/

/-- C1 counterexample: a ticker absent from the classification store is
attributed category `{Equities: 100}`, not `{Other: 100}` as claimed. -/
theorem C1_counterexample :
    classLookup [] "VTI" = none ∧
    (computeBreakdown [] [⟨"VTI", "Vanguard Total", 1, 100, "fidelity"⟩]).by_category =
      [("Equities", ⟨100, 100⟩)] ∧
    (computeBreakdown [] [⟨"VTI", "Vanguard Total", 1, 100, "fidelity"⟩]).holdings.map
      HoldingDetail.category = [[("Equities", 100)]] := by
  refine ⟨rfl, by decide, by decide⟩

/-- C1 (amended): a ticker absent from the classification store is
attributed region `{US: 100}` and category `{Equities: 100}`. -/
theorem C1_default_attribution (cs : List TickerClassification) (hs : List Holding)
    (hne : totalValueRaw hs ≠ 0) :
    ∀ d ∈ (computeBreakdown cs hs).holdings, classLookup cs d.ticker = none →
      d.region = [("US", 100)] ∧ d.category = [("Equities", 100)] := by
  intro d hd hnone
  obtain ⟨i, _, rfl⟩ := (mem_breakdown_holdings hne).1 hd
  have ht : (mkDetail cs (totalValueRaw hs) i).ticker = i.ticker := rfl
  rw [ht] at hnone
  constructor
  · show resolveRegion cs i.ticker = [("US", 100)]
    simp [resolveRegion, hnone]
  · show resolveCategory cs i.ticker = [("Equities", 100)]
    simp [resolveCategory, hnone]

def hsW1 : List Holding := [⟨"VTI", "Vanguard Total", 1, 100, "fidelity"⟩]

def dW1 : HoldingDetail :=
  ⟨"VTI", "Vanguard Total", 100, 100, 1, ["fidelity"], [("US", 100)], [("Equities", 100)]⟩

/-- Witness for the amended C1 at a concrete absent ticker. -/
theorem C1_default_attribution_witness :
    dW1.region = [("US", 100)] ∧ dW1.category = [("Equities", 100)] :=
  C1_default_attribution [] hsW1 (by decide) dW1 (by decide) (by decide)

/-! ### C9 -/

/-- C9: a ticker whose classification row exists but whose region
(resp. category) breakdown is empty is attributed region `{US: 100}`
(resp. category `{Equities: 100}`); the detail record carries exactly the
substituted distribution, so the value enters the aggregates in full. -/
theorem C9_empty_breakdown_defaults (cs : List TickerClassification) (hs : List Holding)
    (hne : totalValueRaw hs ≠ 0) :
    ∀ d ∈ (computeBreakdown cs hs).holdings, ∀ c, classLookup cs d.ticker = some c →
      (c.region_breakdown = [] → d.region = [("US", 100)]) ∧
      (c.category_breakdown = [] → d.category = [("Equities", 100)]) := by
  intro d hd c hsome
  obtain ⟨i, _, rfl⟩ := (mem_breakdown_holdings hne).1 hd
  have ht : (mkDetail cs (totalValueRaw hs) i).ticker = i.ticker := rfl
  rw [ht] at hsome
  constructor
  · intro hreg
    show resolveRegion cs i.ticker = [("US", 100)]
    simp [resolveRegion, hsome, hreg]
  · intro hcat
    show resolveCategory cs i.ticker = [("Equities", 100)]
    simp [resolveCategory, hsome, hcat]

def csW9 : List TickerClassification := [⟨"VTI", [], []⟩]

def dW9 : HoldingDetail :=
  ⟨"VTI", "Vanguard Total", 100, 100, 1, ["fidelity"], [("US", 100)], [("Equities", 100)]⟩

/-- Witness for C9 at a concrete present-but-empty classification. -/
theorem C9_empty_breakdown_defaults_witness :
    (dW9.region = [("US", 100)]) ∧ (dW9.category = [("Equities", 100)]) := by
  have h := C9_empty_breakdown_defaults csW9 hsW1 (by decide) dW9 (by decide)
    ⟨"VTI", [], []⟩ (by decide)
  exact ⟨h.1 rfl, h.2 rfl⟩

/-! ### C4 -/

theorem mem_computeRebalance {bd : Breakdown} {dim : Dimension}
    {ts : List TargetAllocation} {i : RebalanceItem} :
    i ∈ computeRebalance bd dim ts ↔
      bd.total_value ≠ 0 ∧ (targetsDict ts dim).isEmpty = false ∧
      ∃ l ∈ allLabels bd dim ts,
        mkItem bd.total_value (bd.currentOf dim) (targetsDict ts dim) l = i := by
  by_cases h1 : bd.total_value = 0
  · simp [computeRebalance, h1]
  · by_cases h2 : (targetsDict ts dim).isEmpty
    · simp [computeRebalance, h1, h2]
    · simp [computeRebalance, h1, h2, List.mem_insertionSort]

theorem action_ite_iff (d : ℚ) :
    (((if 1/2 < d then "sell" else if d < -(1/2) then "buy" else "hold") = "sell" ↔ 1/2 < d) ∧
     ((if 1/2 < d then "sell" else if d < -(1/2) then "buy" else "hold") = "buy" ↔ d < -(1/2)) ∧
     ((if 1/2 < d then "sell" else if d < -(1/2) then "buy" else "hold") = "hold" ↔
       -(1/2) ≤ d ∧ d ≤ 1/2)) := by
  by_cases h1 : (1:ℚ)/2 < d
  · rw [if_pos h1]
    exact ⟨⟨fun _ => h1, fun _ => rfl⟩,
      ⟨fun c => absurd c (by decide), fun c => absurd c (by linarith)⟩,
      ⟨fun c => absurd c (by decide), fun c => absurd c.2 (not_le.mpr h1)⟩⟩
  · rw [if_neg h1]
    by_cases h2 : d < -(1/2)
    · rw [if_pos h2]
      exact ⟨⟨fun c => absurd c (by decide), fun c => absurd c h1⟩,
        ⟨fun _ => h2, fun _ => rfl⟩,
        ⟨fun c => absurd c (by decide), fun c => absurd c.1 (not_le.mpr h2)⟩⟩
    · rw [if_neg h2]
      exact ⟨⟨fun c => absurd c (by decide), fun c => absurd c h1⟩,
        ⟨fun c => absurd c (by decide), fun c => absurd c h2⟩,
        ⟨fun _ => ⟨not_lt.1 h2, not_lt.1 h1⟩, fun _ => rfl⟩⟩

/-- C4: within any rebalance result, the action field is exactly the drift
thresholding: sell iff drift > 0.5, buy iff drift < -0.5, hold iff
-0.5 ≤ drift ≤ 0.5 (both boundaries included in hold). -/
theorem C4_action_thresholds (bd : Breakdown) (dim : Dimension)
    (ts : List TargetAllocation) :
    ∀ i ∈ computeRebalance bd dim ts,
      (i.action = "sell" ↔ 1/2 < i.drift) ∧
      (i.action = "buy" ↔ i.drift < -(1/2)) ∧
      (i.action = "hold" ↔ -(1/2) ≤ i.drift ∧ i.drift ≤ 1/2) := by
  intro i hi
  obtain ⟨-, -, l, -, rfl⟩ := mem_computeRebalance.1 hi
  exact action_ite_iff _

def bdW4 : Breakdown :=
  ⟨100, [],
    [("A", ⟨5051/100, 5051/100⟩), ("B", ⟨4949/100, 4949/100⟩), ("C", ⟨1/2, 1/2⟩)], []⟩

def tsW4 : List TargetAllocation :=
  [⟨.category, "A", 50⟩, ⟨.category, "B", 50⟩, ⟨.category, "C", 0⟩]

def itemA4 : RebalanceItem := ⟨"A", 5051/100, 50, 5051/100, 50, 51/100, "sell", 51/100⟩
def itemB4 : RebalanceItem := ⟨"B", 4949/100, 50, 4949/100, 50, -(51/100), "buy", 51/100⟩
def itemC4 : RebalanceItem := ⟨"C", 1/2, 0, 1/2, 0, 1/2, "hold", 1/2⟩

/-- Witness for C4: drift 0.51 is a sell, drift -0.51 a buy, and the exact
boundary drift 0.5 a hold. -/
theorem C4_action_thresholds_witness :
    itemA4.action = "sell" ∧ itemB4.action = "buy" ∧ itemC4.action = "hold" := by
  refine ⟨?_, ?_, ?_⟩
  · exact ((C4_action_thresholds bdW4 .category tsW4 itemA4 (by decide)).1).mpr (by decide)
  · exact ((C4_action_thresholds bdW4 .category tsW4 itemB4 (by decide)).2.1).mpr (by decide)
  · exact ((C4_action_thresholds bdW4 .category tsW4 itemC4 (by decide)).2.2).mpr (by decide)

/-! ### C5 -/

theorem round2_zero : round2 0 = 0 := by decide

theorem mkItem_label (t : ℚ) (c : List (String × LabelStat)) (td : List (String × ℚ))
    (l : String) : (mkItem t c td l).label = l := rfl

theorem mem_keys_setTarget {m : List (String × ℚ)} {l p l'} :
    l' ∈ (setTarget m l p).map Prod.fst ↔ l' ∈ m.map Prod.fst ∨ l' = l := by
  induction m with
  | nil => simp [setTarget]
  | cons kv rest ih =>
    obtain ⟨k, v⟩ := kv
    by_cases h : k = l
    · subst h
      simp [setTarget]
      tauto
    · simp [setTarget, h, ih]
      tauto

theorem mem_keys_targets_foldl (rows : List TargetAllocation) :
    ∀ (m : List (String × ℚ)) (l' : String),
      l' ∈ ((rows.foldl (fun acc t => setTarget acc t.label t.target_pct) m).map Prod.fst) ↔
        l' ∈ m.map Prod.fst ∨ l' ∈ rows.map TargetAllocation.label := by
  induction rows with
  | nil => simp
  | cons t rest ih =>
    intro m l'
    simp only [List.foldl_cons, ih, mem_keys_setTarget, List.map_cons, List.mem_cons]
    tauto

theorem mem_keys_targetsDict {ts : List TargetAllocation} {dim : Dimension} {l : String} :
    l ∈ (targetsDict ts dim).map Prod.fst ↔
      l ∈ (ts.filter (fun t => decide (t.dimension = dim))).map TargetAllocation.label := by
  unfold targetsDict
  rw [mem_keys_targets_foldl]
  simp

theorem mem_allLabels {bd : Breakdown} {dim : Dimension} {ts : List TargetAllocation}
    {l : String} :
    l ∈ allLabels bd dim ts ↔
      l ∈ (bd.currentOf dim).map Prod.fst ∨
      l ∈ (ts.filter (fun t => decide (t.dimension = dim))).map TargetAllocation.label := by
  unfold allLabels
  rw [List.mem_insertionSort, List.mem_dedup, List.mem_append, mem_keys_targetsDict]

theorem nodup_allLabels (bd : Breakdown) (dim : Dimension) (ts : List TargetAllocation) :
    (allLabels bd dim ts).Nodup := by
  unfold allLabels
  exact ((List.perm_insertionSort strLe _).nodup_iff).mpr (List.nodup_dedup _)

theorem rebalance_labels_perm (bd : Breakdown) (dim : Dimension) (ts : List TargetAllocation)
    (htv : bd.total_value ≠ 0) (hts : (targetsDict ts dim).isEmpty = false) :
    ((computeRebalance bd dim ts).map RebalanceItem.label).Perm (allLabels bd dim ts) := by
  unfold computeRebalance
  rw [if_neg htv, if_neg (by simp [hts])]
  refine ((List.perm_insertionSort driftDesc _).map RebalanceItem.label).trans ?_
  rw [List.map_map]
  have : (RebalanceItem.label ∘ mkItem bd.total_value (bd.currentOf dim) (targetsDict ts dim))
      = id := by
    funext l
    rfl
  rw [this, List.map_id]

/-- C5: with a nonzero total and a nonempty target dict, the rebalance
result has exactly one item per label in the union of current labels and
target labels; a label missing from the current distribution gets
current_value = 0 and current_pct = 0, and a label missing from the
targets gets target_pct = 0. -/
theorem C5_label_union (bd : Breakdown) (dim : Dimension) (ts : List TargetAllocation)
    (htv : bd.total_value ≠ 0) (hts : (targetsDict ts dim).isEmpty = false) :
    (((computeRebalance bd dim ts).map RebalanceItem.label).Nodup) ∧
    (∀ l : String, l ∈ (computeRebalance bd dim ts).map RebalanceItem.label ↔
      (l ∈ (bd.currentOf dim).map Prod.fst ∨
       l ∈ (ts.filter (fun t => decide (t.dimension = dim))).map TargetAllocation.label)) ∧
    (∀ i ∈ computeRebalance bd dim ts, lookupStat (bd.currentOf dim) i.label = none →
      i.current_value = 0 ∧ i.current_pct = 0) ∧
    (∀ i ∈ computeRebalance bd dim ts, lookupPct (targetsDict ts dim) i.label = none →
      i.target_pct = 0) := by
  refine ⟨((rebalance_labels_perm bd dim ts htv hts).nodup_iff).mpr
      (nodup_allLabels bd dim ts), ?_, ?_, ?_⟩
  · intro l
    rw [(rebalance_labels_perm bd dim ts htv hts).mem_iff, mem_allLabels]
  · intro i hi hnone
    obtain ⟨-, -, l, -, rfl⟩ := mem_computeRebalance.1 hi
    rw [mkItem_label] at hnone
    constructor
    · show round2 (((lookupStat (bd.currentOf dim) l).map LabelStat.value).getD 0) = 0
      rw [hnone]
      exact round2_zero
    · show round2 (((lookupStat (bd.currentOf dim) l).map LabelStat.pct).getD 0) = 0
      rw [hnone]
      exact round2_zero
  · intro i hi hnone
    obtain ⟨-, -, l, -, rfl⟩ := mem_computeRebalance.1 hi
    rw [mkItem_label] at hnone
    show round2 (((lookupPct (targetsDict ts dim) l)).getD 0) = 0
    rw [hnone]
    exact round2_zero

def bdW5 : Breakdown := ⟨100, [], [("Technology", ⟨100, 100⟩)], []⟩

def tsW5 : List TargetAllocation :=
  [⟨.category, "Technology", 50⟩, ⟨.category, "Cash", 50⟩]

/-- Witness for C5: the spec's example — current 100% Technology with
targets Technology 50 / Cash 50 produces a Cash item with current_value 0
and action buy. -/
theorem C5_label_union_witness :
    ("Cash" ∈ (computeRebalance bdW5 .category tsW5).map RebalanceItem.label) ∧
    computeRebalance bdW5 .category tsW5 =
      [⟨"Cash", 0, 50, 0, 50, -50, "buy", 50⟩,
       ⟨"Technology", 100, 50, 100, 50, 50, "sell", 50⟩] :=
  ⟨((C5_label_union bdW5 .category tsW5 (by decide) (by decide)).2.1 "Cash").mpr
      (Or.inr (by decide)),
    by decide⟩

/-! ### C6 -/

theorem driftDesc_total : ∀ a b : RebalanceItem, driftDesc a b ∨ driftDesc b a := by
  intro a b
  rcases le_total (|b.drift|) (|a.drift|) with h | h
  · exact Or.inl h
  · exact Or.inr h

theorem driftDesc_trans : ∀ a b c : RebalanceItem,
    driftDesc a b → driftDesc b c → driftDesc a c := by
  intro a b c h1 h2
  exact le_trans h2 h1

/-- C6: the rebalance list is sorted by descending absolute drift — every
earlier item has absolute drift at least that of every later item. -/
theorem C6_sorted_by_abs_drift (bd : Breakdown) (dim : Dimension)
    (ts : List TargetAllocation) :
    (computeRebalance bd dim ts).Pairwise (fun a b => |b.drift| ≤ |a.drift|) := by
  by_cases h1 : bd.total_value = 0
  · simp [computeRebalance, h1]
  · by_cases h2 : (targetsDict ts dim).isEmpty
    · simp [computeRebalance, h1, h2]
    · unfold computeRebalance
      rw [if_neg h1, if_neg (by simp [h2])]
      haveI : IsTotal RebalanceItem driftDesc := ⟨driftDesc_total⟩
      haveI : IsTrans RebalanceItem driftDesc := ⟨driftDesc_trans⟩
      exact List.sorted_insertionSort driftDesc _

/-! ### C10 -/

theorem charLeAux_total : ∀ as bs : List Char,
    charLeAux as bs = true ∨ charLeAux bs as = true
  | [], _ => Or.inl rfl
  | _ :: _, [] => Or.inr rfl
  | a :: as, b :: bs => by
    rcases Nat.lt_trichotomy a.toNat b.toNat with h | h | h
    · left
      simp [charLeAux, h]
    · have h1 : ¬ a.toNat < b.toNat := by omega
      have h2 : ¬ b.toNat < a.toNat := by omega
      simp only [charLeAux, if_neg h1, if_neg h2]
      exact charLeAux_total as bs
    · right
      simp [charLeAux, h]

theorem charLeAux_trans : ∀ as bs cs : List Char,
    charLeAux as bs = true → charLeAux bs cs = true → charLeAux as cs = true
  | [], _, _, _, _ => rfl
  | _ :: _, [], _, h1, _ => by simp [charLeAux] at h1
  | _ :: _, _ :: _, [], _, h2 => by simp [charLeAux] at h2
  | a :: as, b :: bs, c :: cs, h1, h2 => by
    simp only [charLeAux] at h1 h2 ⊢
    by_cases hab : a.toNat < b.toNat
    · -- a < b; need info on b vs c
      by_cases hbc : b.toNat < c.toNat
      · rw [if_pos (by omega)]
      · by_cases hcb : c.toNat < b.toNat
        · rw [if_neg hbc, if_pos hcb] at h2
          exact absurd h2 (by simp)
        · rw [if_pos (by omega)]
    · by_cases hba : b.toNat < a.toNat
      · rw [if_neg hab, if_pos hba] at h1
        exact absurd h1 (by simp)
      · rw [if_neg hab, if_neg hba] at h1
        by_cases hbc : b.toNat < c.toNat
        · rw [if_pos (by omega)]
        · by_cases hcb : c.toNat < b.toNat
          · rw [if_neg hbc, if_pos hcb] at h2
            exact absurd h2 (by simp)
          · rw [if_neg hbc, if_neg hcb] at h2
            rw [if_neg (by omega), if_neg (by omega)]
            exact charLeAux_trans as bs cs h1 h2

theorem strLe_total : ∀ a b : String, strLe a b ∨ strLe b a := fun a b =>
  charLeAux_total a.data b.data

theorem strLe_trans : ∀ a b c : String, strLe a b → strLe b c → strLe a c :=
  fun a b c => charLeAux_trans a.data b.data c.data

theorem sublist_pair_of_mem_ne {α : Type} {x y : α} :
    ∀ {l : List α}, x ∈ l → y ∈ l → x ≠ y → List.Sublist [x, y] l ∨ List.Sublist [y, x] l
  | [], hx, _, _ => absurd hx (List.not_mem_nil x)
  | a :: l, hx, hy, hne => by
    rcases List.mem_cons.1 hx with rfl | hx2
    · rcases List.mem_cons.1 hy with rfl | hy2
      · exact absurd rfl hne
      · exact Or.inl (List.Sublist.cons₂ x (List.singleton_sublist.2 hy2))
    · rcases List.mem_cons.1 hy with rfl | hy2
      · exact Or.inr (List.Sublist.cons₂ y (List.singleton_sublist.2 hx2))
      · rcases sublist_pair_of_mem_ne hx2 hy2 hne with h | h
        · exact Or.inl (h.cons a)
        · exact Or.inr (h.cons a)

theorem eq_of_pair_sublists_nodup {α : Type} {x y : α} :
    ∀ {l : List α}, l.Nodup → List.Sublist [x, y] l → List.Sublist [y, x] l → x = y := by
  intro l
  induction l with
  | nil => intro _ h1; exact absurd (List.sublist_nil.1 h1) (by simp)
  | cons a t ih =>
    intro hnd h1 h2
    have ha : a ∉ t := (List.nodup_cons.1 hnd).1
    have ht : t.Nodup := (List.nodup_cons.1 hnd).2
    cases h1 with
    | cons _ h1t =>
      cases h2 with
      | cons _ h2t => exact ih ht h1t h2t
      | cons₂ _ h2t =>
        -- y = a and [x] <+ t; from h1t, y ∈ t, contradiction with a ∉ t
        exact absurd (h1t.subset (by simp)) ha
    | cons₂ _ h1t =>
      -- x = a and [y] <+ t
      cases h2 with
      | cons _ h2t => exact absurd (h2t.subset (by simp)) ha
      | cons₂ _ h2t => rfl

theorem pair_getElem_sublist {α : Type} (l : List α) (i j : ℕ) (hi : i < l.length)
    (hj : j < l.length) (hij : i < j) : List.Sublist [l[i], l[j]] l := by
  induction l generalizing i j with
  | nil => exact absurd hi (Nat.not_lt_zero i)
  | cons a t ih =>
    cases j with
    | zero => omega
    | succ j2 =>
      cases i with
      | zero =>
        simp only [List.getElem_cons_zero, List.getElem_cons_succ]
        exact List.Sublist.cons₂ a
          (List.singleton_sublist.2 (List.getElem_mem (by simpa using hj)))
      | succ i2 =>
        simp only [List.length_cons] at hi hj
        simp only [List.getElem_cons_succ]
        exact List.Sublist.cons a
          (ih i2 j2 (by omega) (by omega) (by omega))

/-- C10: ties in absolute drift are ordered alphabetically by label — the
labels were sorted before the stable sort by descending absolute drift. -/
theorem C10_ties_alphabetical (bd : Breakdown) (dim : Dimension)
    (ts : List TargetAllocation) :
    (computeRebalance bd dim ts).Pairwise
      (fun a b => |a.drift| = |b.drift| → strLe a.label b.label ∧ a.label ≠ b.label) := by
  by_cases h1 : bd.total_value = 0
  · simp [computeRebalance, h1]
  by_cases h2 : (targetsDict ts dim).isEmpty
  · simp [computeRebalance, h1, h2]
  unfold computeRebalance
  rw [if_neg h1, if_neg (by simp [h2])]
  have hsorted : (allLabels bd dim ts).Pairwise strLe := by
    haveI : IsTotal String strLe := ⟨strLe_total⟩
    haveI : IsTrans String strLe := ⟨fun a b c => strLe_trans a b c⟩
    exact List.sorted_insertionSort strLe _
  have hnd : (allLabels bd dim ts).Nodup := nodup_allLabels bd dim ts
  have hlab : ((allLabels bd dim ts).map
      (mkItem bd.total_value (bd.currentOf dim) (targetsDict ts dim))).Pairwise
      (fun a b => strLe a.label b.label ∧ a.label ≠ b.label) := by
    rw [List.pairwise_map]
    exact hsorted.and hnd
  set items := (allLabels bd dim ts).map
    (mkItem bd.total_value (bd.currentOf dim) (targetsDict ts dim)) with hitems
  have hnd_items : items.Nodup :=
    hlab.imp (fun h heq => h.2 (by rw [heq]))
  have hperm := List.perm_insertionSort driftDesc items
  have hnd_out : (items.insertionSort driftDesc).Nodup := hperm.nodup_iff.mpr hnd_items
  rw [List.pairwise_iff_getElem]
  intro i j hi hj hij hdrift
  have hne : (items.insertionSort driftDesc)[i] ≠ (items.insertionSort driftDesc)[j] :=
    fun heq => absurd (hnd_out.getElem_inj_iff.1 heq) (by omega)
  have hx : (items.insertionSort driftDesc)[i] ∈ items :=
    hperm.mem_iff.1 (List.getElem_mem hi)
  have hy : (items.insertionSort driftDesc)[j] ∈ items :=
    hperm.mem_iff.1 (List.getElem_mem hj)
  rcases sublist_pair_of_mem_ne hx hy hne with hxy | hyx
  · have hp : List.Pairwise
        (fun a b : RebalanceItem => strLe a.label b.label ∧ a.label ≠ b.label)
        [(items.insertionSort driftDesc)[i], (items.insertionSort driftDesc)[j]] :=
      List.Pairwise.sublist hxy hlab
    exact (List.pairwise_cons.1 hp).1 _ (List.mem_cons_self _ _)
  · have hdd : driftDesc (items.insertionSort driftDesc)[j]
        (items.insertionSort driftDesc)[i] := le_of_eq hdrift
    have hsub2 : List.Sublist [(items.insertionSort driftDesc)[j], (items.insertionSort driftDesc)[i]]
        (items.insertionSort driftDesc) :=
      List.pair_sublist_insertionSort hdd hyx
    have hsub1 : List.Sublist [(items.insertionSort driftDesc)[i], (items.insertionSort driftDesc)[j]]
        (items.insertionSort driftDesc) :=
      pair_getElem_sublist _ i j hi hj hij
    exact absurd (eq_of_pair_sublists_nodup hnd_out hsub1 hsub2) hne

/-! ### C8 -/

/-- The category action string for a non-hold item. -/
def fmtCat (i : RebalanceItem) : String :=
  if i.action == "sell" then "Sell $" ++ moneyStr i.amount ++ " of " ++ i.label
  else "Buy $" ++ moneyStr i.amount ++ " of " ++ i.label

/-- The region action string for a non-hold item. -/
def fmtReg (i : RebalanceItem) : String :=
  if i.action == "sell" then "Reduce " ++ i.label ++ " by $" ++ moneyStr i.amount
  else "Increase " ++ i.label ++ " by $" ++ moneyStr i.amount

theorem action_trichotomy (bd : Breakdown) (dim : Dimension) (ts : List TargetAllocation) :
    ∀ i ∈ computeRebalance bd dim ts,
      i.action = "sell" ∨ i.action = "buy" ∨ i.action = "hold" := by
  intro i hi
  obtain ⟨-, -, l, -, rfl⟩ := mem_computeRebalance.1 hi
  have hact : (mkItem bd.total_value (bd.currentOf dim) (targetsDict ts dim) l).action
      = if 1/2 < (mkItem bd.total_value (bd.currentOf dim) (targetsDict ts dim) l).drift
        then "sell"
        else if (mkItem bd.total_value (bd.currentOf dim) (targetsDict ts dim) l).drift < -(1/2)
        then "buy" else "hold" := rfl
  rw [hact]
  split
  · exact Or.inl rfl
  · split
    · exact Or.inr (Or.inl rfl)
    · exact Or.inr (Or.inr rfl)

theorem foldl_catStep (l : List RebalanceItem)
    (htri : ∀ i ∈ l, i.action = "sell" ∨ i.action = "buy" ∨ i.action = "hold") :
    ∀ acc : List String, l.foldl catStep acc =
      acc ++ (l.filter (fun i => decide (i.action ≠ "hold"))).map fmtCat := by
  induction l with
  | nil => intro acc; simp
  | cons i l ih =>
    intro acc
    have htl : ∀ j ∈ l, j.action = "sell" ∨ j.action = "buy" ∨ j.action = "hold" :=
      fun j hj => htri j (List.mem_cons_of_mem i hj)
    rcases htri i (List.mem_cons_self i l) with h | h | h
    · have hstep : catStep acc i = acc ++ [fmtCat i] := by simp [catStep, fmtCat, h]
      rw [List.foldl_cons, hstep, ih htl, List.filter_cons, if_pos (by simp [h])]
      simp
    · have hstep : catStep acc i = acc ++ [fmtCat i] := by simp [catStep, fmtCat, h]
      rw [List.foldl_cons, hstep, ih htl, List.filter_cons, if_pos (by simp [h])]
      simp
    · have hstep : catStep acc i = acc := by simp [catStep, h]
      rw [List.foldl_cons, hstep, ih htl, List.filter_cons, if_neg (by simp [h])]

theorem foldl_regStep (l : List RebalanceItem)
    (htri : ∀ i ∈ l, i.action = "sell" ∨ i.action = "buy" ∨ i.action = "hold") :
    ∀ acc : List String, l.foldl regStep acc =
      acc ++ (l.filter (fun i => decide (i.action ≠ "hold"))).map fmtReg := by
  induction l with
  | nil => intro acc; simp
  | cons i l ih =>
    intro acc
    have htl : ∀ j ∈ l, j.action = "sell" ∨ j.action = "buy" ∨ j.action = "hold" :=
      fun j hj => htri j (List.mem_cons_of_mem i hj)
    rcases htri i (List.mem_cons_self i l) with h | h | h
    · have hstep : regStep acc i = acc ++ [fmtReg i] := by simp [regStep, fmtReg, h]
      rw [List.foldl_cons, hstep, ih htl, List.filter_cons, if_pos (by simp [h])]
      simp
    · have hstep : regStep acc i = acc ++ [fmtReg i] := by simp [regStep, fmtReg, h]
      rw [List.foldl_cons, hstep, ih htl, List.filter_cons, if_pos (by simp [h])]
      simp
    · have hstep : regStep acc i = acc := by simp [regStep, h]
      rw [List.foldl_cons, hstep, ih htl, List.filter_cons, if_neg (by simp [h])]

def bdW8 : Breakdown := ⟨100, [], [("A", ⟨61, 61⟩), ("B", ⟨39, 39⟩)], []⟩

def tsW8 : List TargetAllocation := [⟨.category, "A", 55⟩, ⟨.category, "B", 62⟩]

/-- C8 counterexample: in the category portion of the summary a Buy string
precedes a Sell string, because the list is ordered by descending absolute
drift, not sells-then-buys. -/
theorem C8_counterexample :
    (computeRebalance bdW8 .category tsW8).map RebalanceItem.action = ["buy", "sell"] ∧
    suggestActions bdW8 tsW8 = ["Buy $23 of B", "Sell $6 of A"] := by
  exact ⟨by decide, by decide⟩

/-- C8 (amended): the summary action list is the category actions followed
by the region actions; within each dimension the actions appear in the
rebalance list's own order (descending absolute drift), with sell and buy
interleaved by drift magnitude, and hold items contribute nothing. -/
theorem C8_summary_structure (bd : Breakdown) (ts : List TargetAllocation) :
    suggestActions bd ts =
      ((computeRebalance bd .category ts).filter
        (fun i => decide (i.action ≠ "hold"))).map fmtCat ++
      ((computeRebalance bd .region ts).filter
        (fun i => decide (i.action ≠ "hold"))).map fmtReg := by
  unfold suggestActions
  rw [foldl_catStep _ (action_trichotomy bd .category ts),
    foldl_regStep _ (action_trichotomy bd .region ts)]
  simp

/-! ### C2 -/

/-- Sum of the values of an association list (spec-side measure). -/
def sumSnd (l : List (String × ℚ)) : ℚ := (l.map Prod.snd).sum

/-- Sum of the `value` cells of a by_region / by_category map. -/
def sumStatValues (m : List (String × LabelStat)) : ℚ :=
  (m.map (fun kv => kv.2.value)).sum

/-- Sum of the grouped ticker values. -/
def sumInfoValues (infos : List TickerInfo) : ℚ :=
  (infos.map TickerInfo.value).sum

theorem totalValueRaw_eq_sum (hs : List Holding) :
    totalValueRaw hs = (hs.map Holding.value).sum := by
  suffices h : ∀ (l : List Holding) (a : ℚ),
      l.foldl (fun s h => s + h.value) a = a + (l.map Holding.value).sum by
    simpa using h hs 0
  intro l
  induction l with
  | nil => intro a; simp
  | cons x l ih =>
    intro a
    simp only [List.foldl_cons, List.map_cons, List.sum_cons, ih]
    ring

theorem sumSnd_addTotal (m : List (String × ℚ)) (l : String) (amt : ℚ) :
    sumSnd (addTotal m l amt) = sumSnd m + amt := by
  induction m with
  | nil => simp [addTotal, sumSnd]
  | cons kv rest ih =>
    obtain ⟨k, v⟩ := kv
    by_cases h : k = l
    · simp [addTotal, h, sumSnd]
      ring
    · simp only [addTotal, if_neg h]
      simp only [sumSnd, List.map_cons, List.sum_cons] at ih ⊢
      rw [ih]
      ring

theorem sumSnd_distribute (dist : List (String × ℚ)) :
    ∀ (acc : List (String × ℚ)) (v : ℚ),
      sumSnd (distribute acc v dist) = sumSnd acc + v * sumSnd dist / 100 := by
  induction dist with
  | nil => intro acc v; simp [distribute, sumSnd]
  | cons lp rest ih =>
    intro acc v
    show sumSnd (distribute (addTotal acc lp.1 (v * lp.2 / 100)) v rest) = _
    rw [ih, sumSnd_addTotal]
    simp only [sumSnd, List.map_cons, List.sum_cons]
    ring

theorem sumSnd_regionTotals (cs : List TickerClassification) (infos : List TickerInfo)
    (h : ∀ i ∈ infos, sumSnd (resolveRegion cs i.ticker) = 100) :
    sumSnd (regionTotals cs infos) = sumInfoValues infos := by
  suffices hgen : ∀ (l : List TickerInfo) (acc : List (String × ℚ)),
      (∀ i ∈ l, sumSnd (resolveRegion cs i.ticker) = 100) →
      sumSnd (l.foldl (fun acc i => distribute acc i.value (resolveRegion cs i.ticker)) acc) =
        sumSnd acc + sumInfoValues l by
    simpa [regionTotals, sumSnd] using hgen infos [] h
  intro l
  induction l with
  | nil => intro acc _; simp [sumInfoValues]
  | cons i l ih =>
    intro acc hl
    simp only [List.foldl_cons]
    rw [ih _ (fun j hj => hl j (List.mem_cons_of_mem i hj)), sumSnd_distribute,
      hl i (List.mem_cons_self i l)]
    simp only [sumInfoValues, List.map_cons, List.sum_cons]
    ring

theorem sumSnd_categoryTotals (cs : List TickerClassification) (infos : List TickerInfo)
    (h : ∀ i ∈ infos, sumSnd (resolveCategory cs i.ticker) = 100) :
    sumSnd (categoryTotals cs infos) = sumInfoValues infos := by
  suffices hgen : ∀ (l : List TickerInfo) (acc : List (String × ℚ)),
      (∀ i ∈ l, sumSnd (resolveCategory cs i.ticker) = 100) →
      sumSnd (l.foldl (fun acc i => distribute acc i.value (resolveCategory cs i.ticker)) acc) =
        sumSnd acc + sumInfoValues l by
    simpa [categoryTotals, sumSnd] using hgen infos [] h
  intro l
  induction l with
  | nil => intro acc _; simp [sumInfoValues]
  | cons i l ih =>
    intro acc hl
    simp only [List.foldl_cons]
    rw [ih _ (fun j hj => hl j (List.mem_cons_of_mem i hj)), sumSnd_distribute,
      hl i (List.mem_cons_self i l)]
    simp only [sumInfoValues, List.map_cons, List.sum_cons]
    ring

theorem sumInfoValues_updateTicker (acc : List TickerInfo) (h : Holding) :
    sumInfoValues (updateTicker acc h) = sumInfoValues acc + h.value := by
  induction acc with
  | nil => simp [updateTicker, sumInfoValues]
  | cons i rest ih =>
    by_cases hc : i.ticker = h.ticker
    · simp only [updateTicker, if_pos hc, sumInfoValues, List.map_cons, List.sum_cons]
      ring
    · simp only [updateTicker, if_neg hc, sumInfoValues, List.map_cons, List.sum_cons] at ih ⊢
      rw [ih]
      ring

theorem sumInfoValues_tickerValues (hs : List Holding) :
    sumInfoValues (tickerValues hs) = totalValueRaw hs := by
  rw [totalValueRaw_eq_sum]
  suffices hgen : ∀ (l : List Holding) (acc : List TickerInfo),
      sumInfoValues (l.foldl updateTicker acc) = sumInfoValues acc + (l.map Holding.value).sum by
    simpa [sumInfoValues] using hgen hs []
  intro l
  induction l with
  | nil => intro acc; simp
  | cons x l ih =>
    intro acc
    simp only [List.foldl_cons, List.map_cons, List.sum_cons, ih, sumInfoValues_updateTicker]
    ring

theorem mem_tickers_updateTicker {acc : List TickerInfo} {h : Holding} {t : String} :
    t ∈ (updateTicker acc h).map TickerInfo.ticker →
      t ∈ acc.map TickerInfo.ticker ∨ t = h.ticker := by
  induction acc with
  | nil =>
    intro ht
    simp [updateTicker] at ht
    exact Or.inr ht
  | cons a rest ih =>
    by_cases hc : a.ticker = h.ticker
    · intro ht
      simp only [updateTicker, if_pos hc, List.map_cons, List.mem_cons] at ht
      rcases ht with ht | ht
      · exact Or.inl (by simp [ht])
      · exact Or.inl (by simp [ht])
    · intro ht
      simp only [updateTicker, if_neg hc, List.map_cons, List.mem_cons] at ht
      rcases ht with ht | ht
      · exact Or.inl (by simp [ht])
      · rcases ih ht with h2 | h2
        · exact Or.inl (by rw [List.map_cons]; exact List.mem_cons_of_mem _ h2)
        · exact Or.inr h2

theorem ticker_mem_of_mem_tickerValues {hs : List Holding} {i : TickerInfo} :
    i ∈ tickerValues hs → i.ticker ∈ hs.map Holding.ticker := by
  suffices hgen : ∀ (l : List Holding) (acc : List TickerInfo), ∀ j ∈ l.foldl updateTicker acc,
      j.ticker ∈ acc.map TickerInfo.ticker ∨ j.ticker ∈ l.map Holding.ticker by
    intro hi
    rcases hgen hs [] i hi with h | h
    · simp at h
    · exact h
  intro l
  induction l with
  | nil =>
    intro acc j hj
    exact Or.inl (List.mem_map_of_mem TickerInfo.ticker hj)
  | cons x l ih =>
    intro acc j hj
    simp only [List.foldl_cons] at hj
    rcases ih (updateTicker acc x) j hj with h | h
    · rcases mem_tickers_updateTicker h with h2 | h2
      · exact Or.inl h2
      · exact Or.inr (by simp [h2])
    · exact Or.inr (by rw [List.map_cons]; exact List.mem_cons_of_mem _ h)

theorem abs_roundHalfEven_sub (x : ℚ) : |(roundHalfEven x : ℚ) - x| ≤ 1/2 := by
  unfold roundHalfEven
  have h1 : (⌊x⌋ : ℚ) ≤ x := Int.floor_le x
  have h2 : x < ⌊x⌋ + 1 := Int.lt_floor_add_one x
  by_cases hr1 : x - ⌊x⌋ < 1/2
  · rw [if_pos hr1, abs_le]
    constructor <;> linarith
  · rw [if_neg hr1]
    by_cases hr2 : (1:ℚ)/2 < x - ⌊x⌋
    · rw [if_pos hr2, abs_le]
      constructor <;> (push_cast; linarith)
    · rw [if_neg hr2]
      by_cases hd : 2 ∣ ⌊x⌋
      · rw [if_pos hd, abs_le]
        constructor <;> linarith
      · rw [if_neg hd, abs_le]
        constructor <;> (push_cast; linarith)

theorem abs_round2_sub (x : ℚ) : |round2 x - x| ≤ 1/200 := by
  unfold round2
  have h := abs_roundHalfEven_sub (x * 100)
  have heq : (roundHalfEven (x * 100) : ℚ) / 100 - x
      = ((roundHalfEven (x * 100) : ℚ) - x * 100) / 100 := by ring
  rw [heq, abs_div, abs_of_pos (by norm_num : (0:ℚ) < 100)]
  linarith

theorem abs_sum_round2_sub (l : List (String × ℚ)) :
    |((l.map (fun kv => round2 kv.2)).sum) - ((l.map Prod.snd).sum)| ≤ l.length / 200 := by
  induction l with
  | nil => simp
  | cons kv rest ih =>
    simp only [List.map_cons, List.sum_cons, List.length_cons]
    have h1 := abs_round2_sub kv.2
    have heq : round2 kv.2 + (rest.map (fun kv => round2 kv.2)).sum
        - (kv.2 + (rest.map Prod.snd).sum)
        = (round2 kv.2 - kv.2)
          + ((rest.map (fun kv => round2 kv.2)).sum - (rest.map Prod.snd).sum) := by ring
    rw [heq]
    refine le_trans (abs_add _ _) ?_
    push_cast
    linarith

theorem sumStatValues_byMap (total : ℚ) (totals : List (String × ℚ)) :
    sumStatValues (byMap total totals) =
      (((totals.insertionSort valDesc)).map (fun kv => round2 kv.2)).sum := by
  unfold sumStatValues byMap
  rw [List.map_map]
  rfl

theorem abs_sumStatValues_byMap_sub (total : ℚ) (totals : List (String × ℚ)) :
    |sumStatValues (byMap total totals) - sumSnd totals| ≤ totals.length / 200 := by
  rw [sumStatValues_byMap]
  have hperm : ((totals.insertionSort valDesc).map Prod.snd).sum = (totals.map Prod.snd).sum :=
    ((List.perm_insertionSort valDesc totals).map Prod.snd).sum_eq
  have h := abs_sum_round2_sub (totals.insertionSort valDesc)
  rw [hperm, List.length_insertionSort] at h
  exact h

theorem length_byMap (total : ℚ) (totals : List (String × ℚ)) :
    (byMap total totals).length = totals.length := by
  unfold byMap
  rw [List.length_map, List.length_insertionSort]

/-- C2 (amended): when every resolved distribution sums to 100, the raw
(pre-rounding) region and category totals conserve total value exactly;
the published per-bucket values, each rounded to 2 decimals, sum to the
published total within 0.005·(number of buckets + 1) — not within 1e-6,
which per-bucket rounding can exceed. -/
theorem C2_conservation_bound (cs : List TickerClassification) (hs : List Holding)
    (hpos : 0 < totalValueRaw hs)
    (hreg : ∀ hh ∈ hs, sumSnd (resolveRegion cs hh.ticker) = 100)
    (hcat : ∀ hh ∈ hs, sumSnd (resolveCategory cs hh.ticker) = 100) :
    sumSnd (regionTotals cs (tickerValues hs)) = totalValueRaw hs ∧
    sumSnd (categoryTotals cs (tickerValues hs)) = totalValueRaw hs ∧
    |sumStatValues (computeBreakdown cs hs).by_region - (computeBreakdown cs hs).total_value|
      ≤ ((computeBreakdown cs hs).by_region.length + 1) / 200 ∧
    |sumStatValues (computeBreakdown cs hs).by_category - (computeBreakdown cs hs).total_value|
      ≤ ((computeBreakdown cs hs).by_category.length + 1) / 200 := by
  have hne : totalValueRaw hs ≠ 0 := ne_of_gt hpos
  have hreg2 : ∀ i ∈ tickerValues hs, sumSnd (resolveRegion cs i.ticker) = 100 := by
    intro i hi
    obtain ⟨h0, hmem, heq⟩ := List.mem_map.1 (ticker_mem_of_mem_tickerValues hi)
    rw [← heq]
    exact hreg h0 hmem
  have hcat2 : ∀ i ∈ tickerValues hs, sumSnd (resolveCategory cs i.ticker) = 100 := by
    intro i hi
    obtain ⟨h0, hmem, heq⟩ := List.mem_map.1 (ticker_mem_of_mem_tickerValues hi)
    rw [← heq]
    exact hcat h0 hmem
  have hr : sumSnd (regionTotals cs (tickerValues hs)) = totalValueRaw hs := by
    rw [sumSnd_regionTotals cs _ hreg2, sumInfoValues_tickerValues]
  have hc : sumSnd (categoryTotals cs (tickerValues hs)) = totalValueRaw hs := by
    rw [sumSnd_categoryTotals cs _ hcat2, sumInfoValues_tickerValues]
  refine ⟨hr, hc, ?_, ?_⟩
  · rw [computeBreakdown_of_ne cs hs hne]
    have hb := abs_sumStatValues_byMap_sub (totalValueRaw hs) (regionTotals cs (tickerValues hs))
    rw [hr] at hb
    have ht := abs_round2_sub (totalValueRaw hs)
    have htr : |totalValueRaw hs - round2 (totalValueRaw hs)| ≤ 1/200 := by
      rw [abs_sub_comm]
      exact ht
    refine le_trans (abs_sub_le _ (totalValueRaw hs) _) ?_
    rw [length_byMap]
    linarith
  · rw [computeBreakdown_of_ne cs hs hne]
    have hb := abs_sumStatValues_byMap_sub (totalValueRaw hs) (categoryTotals cs (tickerValues hs))
    rw [hc] at hb
    have ht := abs_round2_sub (totalValueRaw hs)
    have htr : |totalValueRaw hs - round2 (totalValueRaw hs)| ≤ 1/200 := by
      rw [abs_sub_comm]
      exact ht
    refine le_trans (abs_sub_le _ (totalValueRaw hs) _) ?_
    rw [length_byMap]
    linarith

def hsW2 : List Holding := [⟨"AAA", "A", 1, 101/10, "x"⟩]

def csW2 : List TickerClassification :=
  [⟨"AAA", [("US", 33), ("DM", 33), ("EM", 34)], [("Equities", 100)]⟩]

/-- C2 counterexample: a 33/33/34 region split of a $10.10 holding
satisfies the claim's hypotheses (positive total, distributions summing to
100) yet the rounded by_region values sum to 10.09 against a published
total of 10.10 — off by 0.01, far beyond the claimed 1e-6 tolerance. -/
theorem C2_counterexample :
    0 < totalValueRaw hsW2 ∧
    (∀ hh ∈ hsW2, sumSnd (resolveRegion csW2 hh.ticker) = 100 ∧
      sumSnd (resolveCategory csW2 hh.ticker) = 100) ∧
    sumStatValues (computeBreakdown csW2 hsW2).by_region = 1009/100 ∧
    (computeBreakdown csW2 hsW2).total_value = 101/10 ∧
    ¬ (|sumStatValues (computeBreakdown csW2 hsW2).by_region
        - (computeBreakdown csW2 hsW2).total_value| ≤ 1/1000000) := by
  refine ⟨by decide, by decide, by decide, by decide, by decide⟩

/-- Witness for the amended C2 at a single fully-classified holding. -/
theorem C2_conservation_bound_witness :
    |sumStatValues (computeBreakdown [] hsW1).by_region
      - (computeBreakdown [] hsW1).total_value|
      ≤ ((computeBreakdown [] hsW1).by_region.length + 1) / 200 :=
  (C2_conservation_bound [] hsW1 (by decide) (by decide) (by decide)).2.2.1

/-! ### C7 -/

/-- Dict lookup in `ticker_values`: first (unique) entry with this ticker. -/
def lookupInfo (acc : List TickerInfo) (t : String) : Option TickerInfo :=
  acc.find? (fun i => i.ticker == t)

/-- The effect of one holding on its own ticker's group. -/
def groupStep (o : Option TickerInfo) (h : Holding) : Option TickerInfo :=
  match o with
  | none => some ⟨h.ticker, h.name, h.value, h.quantity, [h.brokerage]⟩
  | some i => some ⟨i.ticker, i.name, i.value + h.value, i.quantity + h.quantity,
      insBrokerage i.brokerages h.brokerage⟩

theorem lookupInfo_updateTicker (acc : List TickerInfo) (h : Holding) (t : String) :
    lookupInfo (updateTicker acc h) t =
      if h.ticker = t then groupStep (lookupInfo acc t) h else lookupInfo acc t := by
  induction acc with
  | nil =>
    by_cases ht : h.ticker = t
    · rw [if_pos ht]
      unfold lookupInfo updateTicker
      rw [List.find?_cons_of_pos _ (by simp [ht])]
      rfl
    · rw [if_neg ht]
      unfold lookupInfo updateTicker
      rw [List.find?_cons_of_neg _ (by simp [ht])]
  | cons a rest ih =>
    by_cases hc : a.ticker = h.ticker
    · have hupd : updateTicker (a :: rest) h =
          ⟨a.ticker, a.name, a.value + h.value, a.quantity + h.quantity,
            insBrokerage a.brokerages h.brokerage⟩ :: rest := by
        simp only [updateTicker, if_pos hc]
      by_cases hat : a.ticker = t
      · have ht : h.ticker = t := by rw [← hc]; exact hat
        rw [if_pos ht, hupd]
        unfold lookupInfo
        rw [List.find?_cons_of_pos _ (by simp [hat]), List.find?_cons_of_pos _ (by simp [hat])]
        rfl
      · have ht : ¬ h.ticker = t := by rw [← hc]; exact hat
        rw [if_neg ht, hupd]
        unfold lookupInfo
        rw [List.find?_cons_of_neg _ (by simp [hat]), List.find?_cons_of_neg _ (by simp [hat])]
    · have hupd : updateTicker (a :: rest) h = a :: updateTicker rest h := by
        simp only [updateTicker, if_neg hc]
      by_cases hat : a.ticker = t
      · have ht : ¬ h.ticker = t := fun h2 => hc (hat.trans h2.symm)
        rw [if_neg ht, hupd]
        unfold lookupInfo
        rw [List.find?_cons_of_pos _ (by simp [hat]), List.find?_cons_of_pos _ (by simp [hat])]
      · have hskip : lookupInfo (a :: rest) t = lookupInfo rest t := by
          unfold lookupInfo
          rw [List.find?_cons_of_neg _ (by simp [hat])]
        rw [hupd, hskip]
        have hskip2 : lookupInfo (a :: updateTicker rest h) t
            = lookupInfo (updateTicker rest h) t := by
          unfold lookupInfo
          rw [List.find?_cons_of_neg _ (by simp [hat])]
        rw [hskip2]
        exact ih

theorem lookupInfo_tickerValues (hs : List Holding) (t : String) :
    lookupInfo (tickerValues hs) t =
      (hs.filter (fun hh => hh.ticker == t)).foldl groupStep none := by
  suffices hgen : ∀ (l : List Holding) (acc : List TickerInfo),
      lookupInfo (l.foldl updateTicker acc) t =
        (l.filter (fun hh => hh.ticker == t)).foldl groupStep (lookupInfo acc t) by
    simpa [tickerValues, lookupInfo, List.find?] using hgen hs []
  intro l
  induction l with
  | nil => intro acc; simp
  | cons hh rest ih =>
    intro acc
    simp only [List.foldl_cons, List.filter_cons]
    rw [ih (updateTicker acc hh), lookupInfo_updateTicker]
    by_cases ht : hh.ticker = t
    · rw [if_pos ht, if_pos (by simp [ht])]
      simp
    · rw [if_neg ht, if_neg (by simp [ht])]

theorem foldl_groupStep_some (l : List Holding) :
    ∀ i : TickerInfo, l.foldl groupStep (some i) =
      some ⟨i.ticker, i.name, i.value + (l.map Holding.value).sum,
        i.quantity + (l.map Holding.quantity).sum,
        l.foldl (fun bs hh => insBrokerage bs hh.brokerage) i.brokerages⟩ := by
  induction l with
  | nil => intro i; simp
  | cons hh rest ih =>
    intro i
    simp only [List.foldl_cons, groupStep, ih, List.map_cons, List.sum_cons]
    congr 2 <;> ring

theorem foldl_groupStep_cons (f : Holding) (fl : List Holding) :
    (f :: fl).foldl groupStep none =
      some ⟨f.ticker, f.name, ((f :: fl).map Holding.value).sum,
        ((f :: fl).map Holding.quantity).sum,
        (f :: fl).foldl (fun bs hh => insBrokerage bs hh.brokerage) []⟩ := by
  have h0 : insBrokerage [] f.brokerage = [f.brokerage] := by simp [insBrokerage]
  simp only [List.foldl_cons, groupStep, foldl_groupStep_some, List.map_cons, List.sum_cons, h0]

theorem mem_insBrokerage {bs : List String} {x b : String} :
    b ∈ insBrokerage bs x ↔ b ∈ bs ∨ b = x := by
  unfold insBrokerage
  by_cases h : x ∈ bs
  · rw [if_pos h]
    constructor
    · exact Or.inl
    · rintro (hb | rfl)
      · exact hb
      · exact h
  · rw [if_neg h]
    simp

theorem nodup_insBrokerage {bs : List String} (x : String) (h : bs.Nodup) :
    (insBrokerage bs x).Nodup := by
  unfold insBrokerage
  by_cases hx : x ∈ bs
  · rw [if_pos hx]; exact h
  · rw [if_neg hx]
    rw [List.nodup_append]
    refine ⟨h, List.nodup_singleton x, ?_⟩
    intro a ha hax
    exact hx ((List.mem_singleton.1 hax) ▸ ha)

theorem mem_foldl_insBrokerage (l : List Holding) :
    ∀ (bs : List String) (b : String),
      b ∈ l.foldl (fun bs hh => insBrokerage bs hh.brokerage) bs ↔
        b ∈ bs ∨ b ∈ l.map Holding.brokerage := by
  induction l with
  | nil => intro bs b; simp
  | cons hh rest ih =>
    intro bs b
    simp only [List.foldl_cons, ih, mem_insBrokerage, List.map_cons, List.mem_cons]
    tauto

theorem nodup_foldl_insBrokerage (l : List Holding) :
    ∀ bs : List String, bs.Nodup →
      (l.foldl (fun bs hh => insBrokerage bs hh.brokerage) bs).Nodup := by
  induction l with
  | nil => intro bs h; exact h
  | cons hh rest ih =>
    intro bs h
    exact ih _ (nodup_insBrokerage hh.brokerage h)

theorem tickers_updateTicker (acc : List TickerInfo) (h : Holding) :
    (updateTicker acc h).map TickerInfo.ticker =
      if h.ticker ∈ acc.map TickerInfo.ticker then acc.map TickerInfo.ticker
      else acc.map TickerInfo.ticker ++ [h.ticker] := by
  induction acc with
  | nil => simp [updateTicker]
  | cons a rest ih =>
    by_cases hc : a.ticker = h.ticker
    · rw [if_pos (by simp [hc])]
      simp [updateTicker, hc]
    · simp only [updateTicker, if_neg hc, List.map_cons, ih]
      by_cases hm : h.ticker ∈ rest.map TickerInfo.ticker
      · rw [if_pos hm, if_pos (by simp [hm])]
      · have hnotin : h.ticker ∉ a.ticker :: rest.map TickerInfo.ticker := by
          simp only [List.mem_cons]
          rintro (h2 | h2)
          · exact hc h2.symm
          · exact hm h2
        rw [if_neg hm, if_neg hnotin]
        simp

theorem nodup_tickers_tickerValues (hs : List Holding) :
    ((tickerValues hs).map TickerInfo.ticker).Nodup := by
  suffices hgen : ∀ (l : List Holding) (acc : List TickerInfo),
      (acc.map TickerInfo.ticker).Nodup → ((l.foldl updateTicker acc).map TickerInfo.ticker).Nodup by
    exact hgen hs [] (by simp)
  intro l
  induction l with
  | nil => intro acc h; exact h
  | cons hh rest ih =>
    intro acc h
    simp only [List.foldl_cons]
    refine ih _ ?_
    rw [tickers_updateTicker]
    by_cases hm : hh.ticker ∈ acc.map TickerInfo.ticker
    · rw [if_pos hm]; exact h
    · rw [if_neg hm]
      rw [List.nodup_append]
      refine ⟨h, List.nodup_singleton _, ?_⟩
      intro a ha hax
      exact hm ((List.mem_singleton.1 hax) ▸ ha)


def hsW7 : List Holding :=
  [⟨"vti", "V", 1, 500, "brokerageA"⟩, ⟨"VTI", "V", 1, 300, "brokerageB"⟩]

/-- C7 counterexample: tickers differing only in case do not collapse —
`compute_breakdown` groups by the exact ticker string, producing two
detail records (500 and 300), not one record of 800. -/
theorem C7_counterexample :
    (computeBreakdown [] hsW7).holdings.length = 2 ∧
    (computeBreakdown [] hsW7).holdings.map (fun d => (d.ticker, d.value)) =
      [("vti", 500), ("VTI", 300)] := by
  exact ⟨by decide, by decide⟩

set_option maxHeartbeats 1000000 in
/-- C7 (amended): `compute_breakdown` groups holdings by their exact
ticker string: there is exactly one detail record per distinct ticker, its
value is the rounded sum of that ticker's holding values, its quantity the
sum of the quantities, and its brokerages field is the duplicate-free set
of contributing brokerages. -/
theorem C7_exact_ticker_grouping (cs : List TickerClassification) (hs : List Holding)
    (hne : totalValueRaw hs ≠ 0) :
    (((computeBreakdown cs hs).holdings.map HoldingDetail.ticker).Nodup) ∧
    (∀ t ∈ hs.map Holding.ticker, ∃ d ∈ (computeBreakdown cs hs).holdings,
      d.ticker = t ∧
      d.value = round2 (((hs.filter (fun hh => hh.ticker == t)).map Holding.value).sum) ∧
      d.quantity = ((hs.filter (fun hh => hh.ticker == t)).map Holding.quantity).sum ∧
      d.brokerages.Nodup ∧
      (∀ b, b ∈ d.brokerages ↔ ∃ hh ∈ hs, hh.ticker = t ∧ hh.brokerage = b)) := by
  constructor
  · rw [computeBreakdown_of_ne cs hs hne]
    have h1 := (List.perm_insertionSort detailDesc
      ((tickerValues hs).map (mkDetail cs (totalValueRaw hs)))).map HoldingDetail.ticker
    refine h1.nodup_iff.mpr ?_
    rw [List.map_map]
    have hcomp : (HoldingDetail.ticker ∘ mkDetail cs (totalValueRaw hs)) = TickerInfo.ticker := by
      funext i
      rfl
    rw [hcomp]
    exact nodup_tickers_tickerValues hs
  · intro t ht
    obtain ⟨h0, h0mem, h0t⟩ := List.mem_map.1 ht
    have hfne : hs.filter (fun hh => hh.ticker == t) ≠ [] := by
      intro hemp
      have hm0 : h0 ∈ hs.filter (fun hh => hh.ticker == t) :=
        List.mem_filter.2 ⟨h0mem, by simp [h0t]⟩
      rw [hemp] at hm0
      exact List.not_mem_nil h0 hm0
    obtain ⟨f, fl, hfil⟩ := List.exists_cons_of_ne_nil hfne
    have hft : f.ticker = t := by
      have hmf : f ∈ hs.filter (fun hh => hh.ticker == t) := by
        rw [hfil]
        exact List.mem_cons_self f fl
      have := (List.mem_filter.1 hmf).2
      simpa using this
    have hlook : lookupInfo (tickerValues hs) t = some ⟨f.ticker, f.name,
        ((hs.filter (fun hh => hh.ticker == t)).map Holding.value).sum,
        ((hs.filter (fun hh => hh.ticker == t)).map Holding.quantity).sum,
        (hs.filter (fun hh => hh.ticker == t)).foldl
          (fun bs hh => insBrokerage bs hh.brokerage) []⟩ := by
      rw [lookupInfo_tickerValues, hfil, foldl_groupStep_cons, ← hfil]
    have hmemInfo : (⟨f.ticker, f.name,
        ((hs.filter (fun hh => hh.ticker == t)).map Holding.value).sum,
        ((hs.filter (fun hh => hh.ticker == t)).map Holding.quantity).sum,
        (hs.filter (fun hh => hh.ticker == t)).foldl
          (fun bs hh => insBrokerage bs hh.brokerage) []⟩ : TickerInfo) ∈ tickerValues hs :=
      List.mem_of_find?_eq_some hlook
    have hmemD : mkDetail cs (totalValueRaw hs) ⟨f.ticker, f.name,
        ((hs.filter (fun hh => hh.ticker == t)).map Holding.value).sum,
        ((hs.filter (fun hh => hh.ticker == t)).map Holding.quantity).sum,
        (hs.filter (fun hh => hh.ticker == t)).foldl
          (fun bs hh => insBrokerage bs hh.brokerage) []⟩
        ∈ (computeBreakdown cs hs).holdings :=
      (mem_breakdown_holdings hne).2 ⟨_, hmemInfo, rfl⟩
    refine ⟨_, hmemD, hft, rfl, rfl, ?_, ?_⟩
    · show (sortStrings _).Nodup
      refine ((List.perm_insertionSort strLe _).nodup_iff).mpr ?_
      exact nodup_foldl_insBrokerage _ [] (List.nodup_nil)
    · intro b
      show b ∈ sortStrings _ ↔ _
      unfold sortStrings
      rw [List.mem_insertionSort, mem_foldl_insBrokerage]
      simp only [List.not_mem_nil, false_or]
      constructor
      · intro hb
        obtain ⟨hh, hhmem, hhb⟩ := List.mem_map.1 hb
        refine ⟨hh, (List.mem_filter.1 hhmem).1, ?_, hhb⟩
        have := (List.mem_filter.1 hhmem).2
        simpa using this
      · rintro ⟨hh, hhmem, hht, hhb⟩
        exact List.mem_map.2 ⟨hh, List.mem_filter.2 ⟨hhmem, by simp [hht]⟩, hhb⟩

def hsW7b : List Holding :=
  [⟨"VTI", "V", 2, 500, "brokerageA"⟩, ⟨"VTI", "V", 3, 300, "brokerageB"⟩]

/-- Witness for the amended C7: two same-ticker holdings of 500 and 300
from two brokerages collapse into one record of 800 with both brokerages. -/
theorem C7_exact_ticker_grouping_witness :
    (∃ d ∈ (computeBreakdown [] hsW7b).holdings,
      d.ticker = "VTI" ∧
      d.value = round2 (((hsW7b.filter (fun hh => hh.ticker == "VTI")).map Holding.value).sum) ∧
      d.quantity = ((hsW7b.filter (fun hh => hh.ticker == "VTI")).map Holding.quantity).sum ∧
      d.brokerages.Nodup ∧
      (∀ b, b ∈ d.brokerages ↔ ∃ hh ∈ hsW7b, hh.ticker = "VTI" ∧ hh.brokerage = b)) ∧
    (computeBreakdown [] hsW7b).holdings =
      [⟨"VTI", "V", 800, 100, 5, ["brokerageA", "brokerageB"], [("US", 100)],
        [("Equities", 100)]⟩] :=
  ⟨(C7_exact_ticker_grouping [] hsW7b (by decide)).2 "VTI" (by decide), by decide⟩

end Rebal
